import Mathlib

/-!
Verification of the Tekton bundle CLI (`cmd/bundler/main.go`) and the
cosign-based signature verification helpers (`oci` package) of the
`pipeline` repository.

Go strings are modelled as `List Char` (`Str`), Go maps used only for
membership as key lists, and external collaborators (the YAML library,
the layer/tarball backend, the registry, the cosign backend) as explicit
function parameters.  Filesystem reads always succeed in the model: a
file is its (filename, contents) pair.
-/

namespace Pipeline

/-- Go strings, modelled as character lists so that splitting and
prefix/suffix reasoning is by structural induction. -/
abbrev Str := List Char

/-! ## Data model of `cmd/bundler/main.go` -/

/-- The `resourceKey` struct: the (apiVersion, kind, name) identity triple. -/
structure ResourceKey where
  apiVersion : Str
  kind : Str
  name : Str
deriving DecidableEq

/-- The `resource` struct: a key together with the raw document text. -/
structure Resource where
  key : ResourceKey
  content : Str
deriving DecidableEq

/-- The `YamlMetadata` struct (`metadata:` block, only `name`). -/
structure YamlMetadata where
  name : Str
deriving DecidableEq

/-- The `YamlResource` envelope struct: `kind`, `apiVersion`, `metadata`. -/
structure YamlResource where
  kind : Str
  apiVersion : Str
  metadata : YamlMetadata
deriving DecidableEq

/-- Errors produced by `parseResource` / `parseFiles`, one constructor per
`fmt.Errorf` site, carrying exactly the context the message interpolates. -/
inductive ParseError where
  | malformedDocument (filename : Str) (index : Nat)
  | unsupportedAPIVersion (filename : Str) (index : Nat)
  | unsupportedKind (kind : Str) (filename : Str) (index : Nat)
  | missingName (filename : Str) (index : Nat)
  | duplicateResource (key : ResourceKey)
deriving DecidableEq

/-- Decidable equality for `Except`, so that concrete runs of the model can
be checked by `decide`. -/
instance {ε α : Type} [DecidableEq ε] [DecidableEq α] : DecidableEq (Except ε α) := fun a b =>
  match a, b with
  | .error e1, .error e2 =>
    if h : e1 = e2 then .isTrue (by rw [h]) else .isFalse (fun hc => h (Except.error.inj hc))
  | .ok v1, .ok v2 =>
    if h : v1 = v2 then .isTrue (by rw [h]) else .isFalse (fun hc => h (Except.ok.inj hc))
  | .error _, .ok _ => .isFalse (fun hc => Except.noConfusion hc)
  | .ok _, .error _ => .isFalse (fun hc => Except.noConfusion hc)

/-- The single supported apiVersion literal, `"tekton.dev/v1beta1"`. -/
def supportedAPIVersion : Str := "tekton.dev/v1beta1".toList

/-- Model of `parseResource`.  `yaml.Unmarshal` is an external collaborator,
passed in as `u`; `u s = none` models an unmarshalling error.  The checks
mirror the source order: unmarshal, apiVersion, kind (switch with cases
`Task` and `Pipeline`, default erroring), then non-empty `metadata.name`. -/
def parseResource (u : Str → Option YamlResource) (s filename : Str) (index : Nat) :
    Except ParseError Resource :=
  match u s with
  | none => .error (.malformedDocument filename index)
  | some yr =>
    if yr.apiVersion ≠ supportedAPIVersion then
      .error (.unsupportedAPIVersion filename index)
    else if yr.kind ≠ "Task".toList ∧ yr.kind ≠ "Pipeline".toList then
      .error (.unsupportedKind yr.kind filename index)
    else if yr.metadata.name = [] then
      .error (.missingName filename index)
    else
      .ok { key := { apiVersion := yr.apiVersion, kind := yr.kind, name := yr.metadata.name },
            content := s }

/-! ## Model of `lookupVerifier` (oci package) -/

/-- The verifier implementations held by the registry; `cosign` is the one
built-in scheme (`cosignVerifier{}`). -/
inductive OciVerifier where
  | cosign
deriving DecidableEq

/-- Error of `lookupVerifier`: the `unknown signer %q` message carries the
requested scheme name. -/
inductive LookupError where
  | unknownSigner (signer : Str)
deriving DecidableEq

/-- Model of `lookupVerifier`: the name `"cosign"` maps to the built-in
cosign verifier, every other name is an `unknown signer` error. -/
def lookupVerifier (signer : Str) : Except LookupError OciVerifier :=
  if signer = "cosign".toList then .ok .cosign
  else .error (.unknownSigner signer)

/-! ## Claim C6 -/

/-- C6: `lookupVerifier` returns the built-in cosign verifier exactly for the
scheme name `"cosign"`; any v returned is that verifier; and for every other
name it returns no verifier but an `UnknownSigner` error naming the
requested scheme. -/
theorem lookupVerifier_cosign_or_unknown (signer : Str) :
    (lookupVerifier signer = .ok .cosign ↔ signer = "cosign".toList) ∧
    (∀ v, lookupVerifier signer = .ok v → v = .cosign) ∧
    (signer ≠ "cosign".toList →
      lookupVerifier signer = .error (.unknownSigner signer)) := by
  refine ⟨⟨fun h => ?_, fun h => ?_⟩, fun v _ => rfl, fun h => ?_⟩
  · by_cases hc : signer = "cosign".toList
    · exact hc
    · rw [lookupVerifier, if_neg hc] at h
      exact Except.noConfusion h
  · rw [lookupVerifier, if_pos h]
  · rw [lookupVerifier, if_neg h]

/-- Witness for C6 at the scheme names `"cosign"` and `"unknown"`. -/
theorem lookupVerifier_cosign_or_unknown_witness :
    lookupVerifier "cosign".toList = .ok .cosign ∧
    lookupVerifier "unknown".toList = .error (.unknownSigner "unknown".toList) :=
  ⟨(lookupVerifier_cosign_or_unknown "cosign".toList).1.mpr rfl,
   (lookupVerifier_cosign_or_unknown "unknown".toList).2.2 (by decide)⟩

/-! ## Claim C7 -/

/-- C7: `parseResource` validates in a fixed order — structured parse, then
apiVersion against the single supported literal, then kind against
{Task, Pipeline}, then non-empty name — so a document violating several
constraints fails with the error of the earliest failing check, and each
error carries the filename and document index. -/
theorem parseResource_check_order (u : Str → Option YamlResource)
    (s filename : Str) (index : Nat) :
    (u s = none → parseResource u s filename index = .error (.malformedDocument filename index)) ∧
    (∀ yr, u s = some yr → yr.apiVersion ≠ supportedAPIVersion →
      parseResource u s filename index = .error (.unsupportedAPIVersion filename index)) ∧
    (∀ yr, u s = some yr → yr.apiVersion = supportedAPIVersion →
      yr.kind ≠ "Task".toList → yr.kind ≠ "Pipeline".toList →
      parseResource u s filename index = .error (.unsupportedKind yr.kind filename index)) ∧
    (∀ yr, u s = some yr → yr.apiVersion = supportedAPIVersion →
      (yr.kind = "Task".toList ∨ yr.kind = "Pipeline".toList) → yr.metadata.name = [] →
      parseResource u s filename index = .error (.missingName filename index)) := by
  refine ⟨fun h => ?_, fun yr h hv => ?_, fun yr h hv hk1 hk2 => ?_, fun yr h hv hk hn => ?_⟩
  · simp only [parseResource, h]
  · simp only [parseResource, h]
    rw [if_pos hv]
  · simp only [parseResource, h]
    rw [if_neg (not_not_intro hv), if_pos ⟨hk1, hk2⟩]
  · simp only [parseResource, h]
    rw [if_neg (not_not_intro hv), if_neg (fun hc => hk.elim hc.1 hc.2), if_pos hn]

/-- Fixture for the C7 witness: an envelope violating the apiVersion, kind
and name constraints at once. -/
def yrAllBad : YamlResource :=
  { kind := "Job".toList, apiVersion := "v1".toList, metadata := { name := [] } }

/-- Fixture for the C7 witness: an unmarshal collaborator returning the
all-bad envelope for every document. -/
def uAllBad : Str → Option YamlResource := fun _ => some yrAllBad

/-- Witness for C7: a document whose envelope has an unsupported apiVersion,
an unsupported kind, and an empty name at once fails with the
apiVersion error, carrying filename and index. -/
theorem parseResource_check_order_witness :
    uAllBad "doc".toList = some yrAllBad ∧
    parseResource uAllBad "doc".toList "f.yaml".toList 0 =
      .error (.unsupportedAPIVersion "f.yaml".toList 0) :=
  ⟨rfl,
   (parseResource_check_order uAllBad "doc".toList "f.yaml".toList 0).2.1
    yrAllBad rfl (by decide)⟩

/-! ## Model of `strings.Split`

`parseFiles` splits file contents on the literal separator `"---\n"` with
Go's `strings.Split`.  For a non-empty separator that function returns the
substrings between the non-overlapping, left-to-right occurrences of the
separator, and returns one empty part for empty input.  The model below
translates that semantics; fuel makes the recursion structural (the fuel is
always at least the remaining length, so the fuel-exhausted branch is dead
code). -/

/-- Fuel-driven core of the `strings.Split` model. -/
def goSplitF (sep : Str) : Nat → Str → List Str
  | _, [] => [[]]
  | 0, _ :: _ => [[]]
  | fuel + 1, c :: rest =>
    if sep ≠ [] ∧ sep.isPrefixOf (c :: rest) then
      [] :: goSplitF sep fuel ((c :: rest).drop sep.length)
    else
      match goSplitF sep fuel rest with
      | [] => [[c]]
      | t :: ts => (c :: t) :: ts

/-- Model of `strings.Split(s, sep)` for the non-empty separators used by
the bundler. -/
def goSplit (sep s : Str) : List Str := goSplitF sep s.length s

/-- The document separator literal `"---\n"`. -/
def sepStr : Str := "---\n".toList

/-- Fuel does not matter as long as it covers the input length. -/
theorem goSplitF_fuel_irrel (sep : Str) :
    ∀ fuel fuel' s, s.length ≤ fuel → s.length ≤ fuel' →
      goSplitF sep fuel s = goSplitF sep fuel' s := by
  intro fuel
  induction fuel with
  | zero =>
    intro fuel' s hs _
    have : s = [] := List.length_eq_zero.mp (Nat.le_zero.mp hs)
    subst this
    cases fuel' <;> rfl
  | succ n ih =>
    intro fuel' s hs hs'
    cases s with
    | nil => cases fuel' <;> rfl
    | cons c rest =>
      cases fuel' with
      | zero => simp at hs'
      | succ m =>
        simp only [goSplitF]
        have hr : rest.length ≤ n := by
          simpa using Nat.le_of_succ_le_succ hs
        have hr' : rest.length ≤ m := by
          simpa using Nat.le_of_succ_le_succ hs'
        by_cases hc : sep ≠ [] ∧ sep.isPrefixOf (c :: rest)
        · rw [if_pos hc, if_pos hc]
          have hsep : 1 ≤ sep.length := by
            have := hc.1
            cases sep with
            | nil => exact absurd rfl this
            | cons a l => simp
          have hd : ((c :: rest).drop sep.length).length ≤ n := by
            simp only [List.length_drop, List.length_cons]
            omega
          have hd' : ((c :: rest).drop sep.length).length ≤ m := by
            simp only [List.length_drop, List.length_cons]
            omega
          rw [ih m ((c :: rest).drop sep.length) hd hd']
        · rw [if_neg hc, if_neg hc, ih m rest hr hr']

/-- Unfolding equation of `goSplit` on the empty string. -/
theorem goSplit_nil (sep : Str) : goSplit sep [] = [[]] := rfl

/-- Unfolding equation of `goSplit` when the separator matches at the front:
the first emitted part is empty and splitting continues past the match. -/
theorem goSplit_cons_pos (sep c rest) (h : sep ≠ [] ∧ sep.isPrefixOf (c :: rest)) :
    goSplit sep (c :: rest) = [] :: goSplit sep ((c :: rest).drop sep.length) := by
  have hsep : 1 ≤ sep.length := by
    cases sep with
    | nil => exact absurd rfl h.1
    | cons a l => simp
  show goSplitF sep (rest.length + 1) (c :: rest) = _
  simp only [goSplitF, if_pos h]
  rw [goSplitF_fuel_irrel sep rest.length ((c :: rest).drop sep.length).length
    ((c :: rest).drop sep.length) (by simp only [List.length_drop, List.length_cons]; omega) le_rfl]
  rfl

/-- Unfolding equation of `goSplit` when the separator does not match at the
front: the head character joins the first part of the rest's split. -/
theorem goSplit_cons_neg (sep c rest) (h : ¬(sep ≠ [] ∧ sep.isPrefixOf (c :: rest))) :
    goSplit sep (c :: rest) =
      match goSplit sep rest with
      | [] => [[c]]
      | t :: ts => (c :: t) :: ts := by
  show goSplitF sep (rest.length + 1) (c :: rest) = _
  simp only [goSplitF, if_neg h]
  rfl

/-- `goSplit` never returns an empty part list. -/
theorem goSplit_ne_nil (sep s : Str) : goSplit sep s ≠ [] := by
  cases s with
  | nil => simp [goSplit_nil]
  | cons c rest =>
    by_cases h : sep ≠ [] ∧ sep.isPrefixOf (c :: rest)
    · rw [goSplit_cons_pos sep c rest h]
      simp
    · rw [goSplit_cons_neg sep c rest h]
      cases goSplit sep rest <;> simp

/-! ## Model of `parseFiles`

`os.ReadFile` is modelled away: the input is the list of (filename,
contents) pairs, read errors being outside the model.  The `keys` map of
the source is modelled as the list of inserted keys, used only for
membership.  The `fmt.Errorf("parsing resource: %v", err)` wrapper only
re-formats the message, so errors are propagated unchanged. -/

/-- Inner loop of `parseFiles` over the parts of one file, carrying the
running document index, the `keys` map and the accumulated resources. -/
def parseFilesParts (u : Str → Option YamlResource) (filename : Str) :
    List Str → Nat → List ResourceKey → List Resource →
    Except ParseError (List ResourceKey × List Resource)
  | [], _, keys, acc => .ok (keys, acc)
  | part :: rest, index, keys, acc =>
    match parseResource u part filename index with
    | .error e => .error e
    | .ok r =>
      if r.key ∈ keys then .error (.duplicateResource r.key)
      else parseFilesParts u filename rest (index + 1) (r.key :: keys) (acc ++ [r])

/-- Outer loop of `parseFiles` over the input files. -/
def parseFilesGo (u : Str → Option YamlResource) :
    List (Str × Str) → List ResourceKey → List Resource →
    Except ParseError (List ResourceKey × List Resource)
  | [], keys, acc => .ok (keys, acc)
  | (filename, contents) :: restFiles, keys, acc =>
    match parseFilesParts u filename (goSplit sepStr contents) 0 keys acc with
    | .error e => .error e
    | .ok (keys2, acc2) => parseFilesGo u restFiles keys2 acc2

/-- Model of `parseFiles`: split every file on `"---\n"`, parse every part
in order, reject duplicate keys, and return the accumulated resources. -/
def parseFiles (u : Str → Option YamlResource) (files : List (Str × Str)) :
    Except ParseError (List Resource) :=
  (parseFilesGo u files [] []).map Prod.snd

/-! ### The flattened view of the two nested loops -/

/-- The (filename, in-file index, part) triples of one file's parts,
numbered from `n`. -/
def indexParts (filename : Str) : List Str → Nat → List (Str × Nat × Str)
  | [], _ => []
  | p :: rest, n => (filename, n, p) :: indexParts filename rest (n + 1)

/-- All (filename, index, part) triples of a batch, in file order then
in-file document order — the order in which `parseFiles` visits them. -/
def partsOf : List (Str × Str) → List (Str × Nat × Str)
  | [] => []
  | (filename, contents) :: rest =>
    indexParts filename (goSplit sepStr contents) 0 ++ partsOf rest

/-- One sequential pass over a flattened triple list, with the same
per-document logic as `parseFiles`. -/
def processParts (u : Str → Option YamlResource) :
    List (Str × Nat × Str) → List ResourceKey → List Resource →
    Except ParseError (List ResourceKey × List Resource)
  | [], keys, acc => .ok (keys, acc)
  | (filename, index, part) :: rest, keys, acc =>
    match parseResource u part filename index with
    | .error e => .error e
    | .ok r =>
      if r.key ∈ keys then .error (.duplicateResource r.key)
      else processParts u rest (r.key :: keys) (acc ++ [r])

theorem parseFilesParts_eq_processParts (u : Str → Option YamlResource)
    (filename : Str) :
    ∀ parts n keys acc,
      parseFilesParts u filename parts n keys acc =
        processParts u (indexParts filename parts n) keys acc := by
  intro parts
  induction parts with
  | nil => intro n keys acc; rfl
  | cons p rest ih =>
    intro n keys acc
    simp only [parseFilesParts, indexParts, processParts]
    cases parseResource u p filename n with
    | error e => rfl
    | ok r =>
      by_cases hk : r.key ∈ keys
      · simp only [if_pos hk]
      · simp only [if_neg hk, ih]

theorem processParts_append (u : Str → Option YamlResource) :
    ∀ l1 l2 keys acc,
      processParts u (l1 ++ l2) keys acc =
        match processParts u l1 keys acc with
        | .error e => .error e
        | .ok (keys2, acc2) => processParts u l2 keys2 acc2 := by
  intro l1
  induction l1 with
  | nil => intro l2 keys acc; rfl
  | cons t rest ih =>
    intro l2 keys acc
    obtain ⟨filename, index, part⟩ := t
    simp only [List.cons_append, processParts]
    cases parseResource u part filename index with
    | error e => rfl
    | ok r =>
      by_cases hk : r.key ∈ keys
      · simp only [if_pos hk]
      · simp only [if_neg hk]
        exact ih l2 (r.key :: keys) (acc ++ [r])

theorem parseFilesGo_eq_processParts (u : Str → Option YamlResource) :
    ∀ files keys acc,
      parseFilesGo u files keys acc = processParts u (partsOf files) keys acc := by
  intro files
  induction files with
  | nil => intro keys acc; rfl
  | cons f rest ih =>
    intro keys acc
    obtain ⟨filename, contents⟩ := f
    simp only [parseFilesGo, partsOf, processParts_append,
      parseFilesParts_eq_processParts]
    cases processParts u (indexParts filename (goSplit sepStr contents) 0) keys acc with
    | error e => rfl
    | ok p =>
      obtain ⟨keys2, acc2⟩ := p
      exact ih keys2 acc2

/-- `parseFiles`, seen as one pass over the flattened triples. -/
theorem parseFiles_eq_processParts (u : Str → Option YamlResource)
    (files : List (Str × Str)) :
    parseFiles u files = (processParts u (partsOf files) [] []).map Prod.snd := by
  simp only [parseFiles, parseFilesGo_eq_processParts]

/-! ### Behaviour of the flattened pass -/

/-- On success, the pass appends exactly the parse results of the visited
triples, in visiting order. -/
theorem processParts_ok_forall2 (u : Str → Option YamlResource) :
    ∀ (l : List (Str × Nat × Str)) keys acc keys2 acc2,
      processParts u l keys acc = .ok (keys2, acc2) →
      ∃ rs, acc2 = acc ++ rs ∧
        List.Forall₂ (fun t r => parseResource u t.2.2 t.1 t.2.1 = .ok r) l rs := by
  intro l
  induction l with
  | nil =>
    intro keys acc keys2 acc2 h
    refine ⟨[], ?_, List.Forall₂.nil⟩
    simp only [processParts] at h
    simpa using congrArg Prod.snd (Except.ok.inj h).symm
  | cons t rest ih =>
    intro keys acc keys2 acc2 h
    obtain ⟨fn, i, p⟩ := t
    simp only [processParts] at h
    cases hpr : parseResource u p fn i with
    | error e =>
      simp only [hpr] at h
      exact Except.noConfusion h
    | ok r =>
      simp only [hpr] at h
      by_cases hk : r.key ∈ keys
      · rw [if_pos hk] at h; exact absurd h (by simp)
      · rw [if_neg hk] at h
        obtain ⟨rs, hacc, hf⟩ := ih (r.key :: keys) (acc ++ [r]) keys2 acc2 h
        exact ⟨r :: rs, by simpa using hacc, List.Forall₂.cons hpr hf⟩

/-- On success, no two accumulated resources share a key (given that the
accumulator already satisfies this and its keys are all recorded). -/
theorem processParts_ok_nodup (u : Str → Option YamlResource) :
    ∀ (l : List (Str × Nat × Str)) keys acc keys2 acc2,
      (acc.map (·.key)).Nodup → (∀ r ∈ acc, r.key ∈ keys) →
      processParts u l keys acc = .ok (keys2, acc2) →
      (acc2.map (·.key)).Nodup := by
  intro l
  induction l with
  | nil =>
    intro keys acc keys2 acc2 hnd _ h
    simp only [processParts] at h
    have : acc = acc2 := by simpa using congrArg Prod.snd (Except.ok.inj h)
    exact this ▸ hnd
  | cons t rest ih =>
    intro keys acc keys2 acc2 hnd hsub h
    obtain ⟨fn, i, p⟩ := t
    simp only [processParts] at h
    cases hpr : parseResource u p fn i with
    | error e =>
      simp only [hpr] at h
      exact Except.noConfusion h
    | ok r =>
      simp only [hpr] at h
      by_cases hk : r.key ∈ keys
      · rw [if_pos hk] at h; exact absurd h (by simp)
      · rw [if_neg hk] at h
        refine ih (r.key :: keys) (acc ++ [r]) keys2 acc2 ?_ ?_ h
        · simp only [List.map_append, List.map_cons, List.map_nil]
          refine List.Nodup.append hnd (List.nodup_singleton _) ?_
          intro k hk1 hk2
          simp only [List.mem_singleton] at hk2
          subst hk2
          obtain ⟨r', hr', hrk⟩ := List.mem_map.mp hk1
          exact hk (hrk ▸ hsub r' hr')
        · intro r' hr'
          rcases List.mem_append.mp hr' with hl | hr2
          · exact List.mem_cons_of_mem _ (hsub r' hl)
          · simp only [List.mem_singleton] at hr2
            subst hr2
            exact List.mem_cons_self _ _

/-- The keys of the triples that parse successfully, in visiting order. -/
def keysOf (u : Str → Option YamlResource) (l : List (Str × Nat × Str)) :
    List ResourceKey :=
  l.filterMap (fun t => ((parseResource u t.2.2 t.1 t.2.1).toOption).map (·.key))

/-- If every triple parses and the combined key list (already-seen keys plus
the incoming ones) has a repeat, the pass fails with `duplicateResource` on
a key that is either already seen or occurs at least twice. -/
theorem processParts_duplicate (u : Str → Option YamlResource) :
    ∀ (l : List (Str × Nat × Str)) keys acc,
      keys.Nodup →
      (∀ t ∈ l, ∃ r, parseResource u t.2.2 t.1 t.2.1 = .ok r) →
      ¬ (keys ++ keysOf u l).Nodup →
      ∃ k, processParts u l keys acc = .error (.duplicateResource k) ∧
        ((k ∈ keys ∧ k ∈ keysOf u l) ∨ 2 ≤ (keysOf u l).count k) := by
  intro l
  induction l with
  | nil =>
    intro keys acc hnd _ hdup
    exact absurd (by simpa [keysOf] using hnd) hdup
  | cons t rest ih =>
    intro keys acc hnd hall hdup
    obtain ⟨fn, i, p⟩ := t
    obtain ⟨r, hpr0⟩ := hall (fn, i, p) (List.mem_cons_self _ _)
    have hpr : parseResource u p fn i = .ok r := hpr0
    have hkeysOf : keysOf u ((fn, i, p) :: rest) = r.key :: keysOf u rest := by
      simp only [keysOf, List.filterMap_cons]
      simp only [hpr]
      rfl
    by_cases hk : r.key ∈ keys
    · refine ⟨r.key, ?_, Or.inl ⟨hk, by simp [hkeysOf]⟩⟩
      simp only [processParts, hpr]
      rw [if_pos hk]
    · have hperm : (keys ++ keysOf u ((fn, i, p) :: rest)).Perm
          ((r.key :: keys) ++ keysOf u rest) := by
        rw [hkeysOf]
        exact List.perm_middle
      have hdup2 : ¬ ((r.key :: keys) ++ keysOf u rest).Nodup := by
        intro hcon
        exact hdup (hperm.nodup_iff.mpr hcon)
      have hnd2 : (r.key :: keys).Nodup := List.Nodup.cons hk hnd
      have hall2 : ∀ t ∈ rest, ∃ r', parseResource u t.2.2 t.1 t.2.1 = .ok r' :=
        fun t ht => hall t (List.mem_cons_of_mem _ ht)
      obtain ⟨k, hrun, hloc⟩ := ih (r.key :: keys) (acc ++ [r]) hnd2 hall2 hdup2
      refine ⟨k, ?_, ?_⟩
      · simp only [processParts, hpr]
        rw [if_neg hk]
        exact hrun
      · rcases hloc with ⟨hk1, hk2⟩ | hcount
        · rcases List.mem_cons.mp hk1 with heq | hmem
          · subst heq
            refine Or.inr ?_
            rw [hkeysOf]
            have h1 : 1 ≤ (keysOf u rest).count r.key := List.count_pos_iff.mpr hk2
            simp only [List.count_cons_self]
            omega
          · exact Or.inl ⟨hmem, by rw [hkeysOf]; exact List.mem_cons_of_mem _ hk2⟩
        · refine Or.inr ?_
          rw [hkeysOf, List.count_cons]
          split <;> omega

/-- If some visited triple cannot parse, the pass fails. -/
theorem processParts_fails (u : Str → Option YamlResource) :
    ∀ (l : List (Str × Nat × Str)) keys acc,
      (∃ t ∈ l, ∀ r, parseResource u t.2.2 t.1 t.2.1 ≠ .ok r) →
      ∃ e, processParts u l keys acc = .error e := by
  intro l
  induction l with
  | nil =>
    intro keys acc h
    obtain ⟨t, ht, _⟩ := h
    exact absurd ht (List.not_mem_nil t)
  | cons t0 rest ih =>
    intro keys acc h
    obtain ⟨t, htl, hfail⟩ := h
    obtain ⟨fn, i, p⟩ := t0
    simp only [processParts]
    cases hpr : parseResource u p fn i with
    | error e => exact ⟨e, rfl⟩
    | ok r =>
      rcases List.mem_cons.mp htl with heq | hmem
      · rw [heq] at hfail
        exact absurd hpr (hfail r)
      · by_cases hk : r.key ∈ keys
        · exact ⟨.duplicateResource r.key, by dsimp only; rw [if_pos hk]⟩
        · obtain ⟨e2, he2⟩ := ih (r.key :: keys) (acc ++ [r]) ⟨t, hmem, hfail⟩
          refine ⟨e2, ?_⟩
          dsimp only
          rw [if_neg hk]
          exact he2

/-! ### Splitting around a leading or trailing separator -/

/-- Splitting a string that starts with the (non-empty) separator emits an
empty first part. -/
theorem goSplit_sep_append (sep r : Str) (hsep : sep ≠ []) :
    goSplit sep (sep ++ r) = [] :: goSplit sep r := by
  cases sep with
  | nil => exact absurd rfl hsep
  | cons a l =>
    have hpre : (a :: l).isPrefixOf ((a :: l) ++ r) :=
      List.isPrefixOf_iff_prefix.mpr ⟨r, rfl⟩
    rw [List.cons_append, goSplit_cons_pos (a :: l) a (l ++ r) ⟨hsep, by rw [← List.cons_append]; exact hpre⟩]
    congr 1
    rw [← List.cons_append, List.drop_left]

/-- If a split starts with an empty part, the input was empty or started
with the separator (and the tail of the split is the split of what
follows the separator). -/
theorem goSplit_head_nil (sep s : Str) (tl : List Str) (_hsep : sep ≠ [])
    (h : goSplit sep s = [] :: tl) :
    s = [] ∨ ∃ r, s = sep ++ r ∧ tl = goSplit sep r := by
  cases s with
  | nil => exact Or.inl rfl
  | cons c rest =>
    by_cases hc : sep ≠ [] ∧ sep.isPrefixOf (c :: rest)
    · rw [goSplit_cons_pos sep c rest hc] at h
      obtain ⟨r, hr⟩ := List.isPrefixOf_iff_prefix.mp hc.2
      refine Or.inr ⟨r, hr.symm, ?_⟩
      have htl : tl = goSplit sep ((c :: rest).drop sep.length) :=
        (List.cons.inj h).2.symm
      rw [htl, ← hr, List.drop_left]
    · rw [goSplit_cons_neg sep c rest hc] at h
      cases hg : goSplit sep rest with
      | nil => rw [hg] at h; exact absurd h (by simp)
      | cons hd0 tl0 => rw [hg] at h; exact absurd h (by simp)

/-- Splitting a string that ends with the bundler's separator `"---\n"`
yields an empty part.  (This uses that `"---\n"` does not overlap itself:
no proper suffix of it equals a prefix of it.) -/
theorem mem_goSplit_append_sepStr_aux :
    ∀ n (t : Str), t.length ≤ n → [] ∈ goSplit sepStr (t ++ sepStr) := by
  intro n
  induction n with
  | zero =>
    intro t ht
    have : t = [] := List.length_eq_zero.mp (Nat.le_zero.mp ht)
    subst this
    decide
  | succ n ih =>
    intro t ht
    by_cases hpre : sepStr.isPrefixOf (t ++ sepStr)
    · obtain ⟨r, hr⟩ := List.isPrefixOf_iff_prefix.mp hpre
      rw [← hr, goSplit_sep_append sepStr r (by decide)]
      exact List.mem_cons_self _ _
    · cases t with
      | nil => exact absurd (List.isPrefixOf_iff_prefix.mpr ⟨[], by simp⟩) hpre
      | cons c t' =>
        rw [List.cons_append,
          goSplit_cons_neg sepStr c (t' ++ sepStr) (fun hc => hpre (by rw [List.cons_append]; exact hc.2))]
        have hm : [] ∈ goSplit sepStr (t' ++ sepStr) := by
          refine ih t' ?_
          simpa using Nat.le_of_succ_le_succ ht
        cases hg : goSplit sepStr (t' ++ sepStr) with
        | nil => exact absurd hg (goSplit_ne_nil _ _)
        | cons hd tl =>
          rw [hg] at hm
          dsimp only
          rcases List.mem_cons.mp hm with hhd | htl
          · -- the rest's first part is empty: peel one separator and recurse
            rcases goSplit_head_nil sepStr (t' ++ sepStr) tl (by decide) (hhd ▸ hg)
              with hnil | ⟨r, hr, htl'⟩
            · exact absurd hnil (by simp [sepStr])
            · have hsep4 : sepStr = ['-', '-', '-', '\n'] := by decide
              rcases t' with _ | ⟨a, _ | ⟨b, _ | ⟨d, t4⟩⟩⟩
              · -- t' = []: the separator itself remains, whose split is [[], []]
                have hre : r = [] := by
                  have hlen := congrArg List.length hr
                  simp at hlen
                  exact hlen
                subst hre
                refine List.mem_cons_of_mem _ ?_
                rw [htl']
                decide
              · rw [hsep4] at hr
                exact absurd hr (by simp +decide)
              · rw [hsep4] at hr
                exact absurd hr (by simp +decide)
              · -- t' has length ≥ 3; distinguish length 3 from length ≥ 4
                rcases t4 with _ | ⟨e, t5⟩
                · rw [hsep4] at hr
                  exact absurd hr (by simp +decide)
                · -- |t'| ≥ 4: t' itself starts with the separator
                  set t' : Str := a :: b :: d :: e :: t5 with ht'
                  have h4 : 4 ≤ t'.length := by simp [ht']
                  have htake : t'.take 4 = sepStr := by
                    have h1 := congrArg (List.take 4) hr
                    rw [List.take_append_of_le_length h4] at h1
                    have h2 : (sepStr ++ r).take 4 = sepStr := by
                      have : sepStr.length = 4 := by decide
                      rw [← this, List.take_left]
                    rw [h2] at h1
                    exact h1
                  have hsplit : t' = sepStr ++ t'.drop 4 := by
                    conv_lhs => rw [← List.take_append_drop 4 t']
                    rw [htake]
                  have hru : r = t'.drop 4 ++ sepStr := by
                    have h1 : sepStr ++ r = (sepStr ++ t'.drop 4) ++ sepStr := by
                      rw [← hsplit, hr]
                    rw [List.append_assoc] at h1
                    exact List.append_cancel_left h1
                  refine List.mem_cons_of_mem _ ?_
                  rw [htl', hru]
                  refine ih (t'.drop 4) ?_
                  have := List.length_drop 4 t'
                  simp only [List.length_cons] at ht ⊢
                  omega
          · exact List.mem_cons_of_mem _ htl

/-- A string ending in the separator splits with an empty part among the
results. -/
theorem mem_goSplit_append_sepStr (t : Str) : [] ∈ goSplit sepStr (t ++ sepStr) :=
  mem_goSplit_append_sepStr_aux t.length t le_rfl

/-! ## Model of `constructImage` (main.go)

`createTarball` writes a single-entry tar archive whose bytes are fully
determined by the entry name `resource-<index>.yaml`, the mode 0600, the
declared size and the resource content; `TarEntry` models those bytes.
`tarball.LayerFromFile` and the registry library's layer metadata are the
external layer backend, modelled as a function from tarball bytes to the
layer's digest/diffID/size/mediaType.  Filesystem staging always succeeds
in the model, and the timestamp-named temporary directory enters only as
the (unused-by-the-bytes) path prefix of the staged tar file. -/

/-- The bytes-determining fields of the single-entry tar archive written by
`createTarball`. -/
structure TarEntry where
  name : Str
  mode : Nat
  size : Nat
  content : Str
deriving DecidableEq

/-- Model of `createTarball` for resource `index`: header name
`resource-<index>.yaml`, mode 0600, size and content of the resource. -/
def createTarball (res : Resource) (index : Nat) : TarEntry :=
  { name := ("resource-" ++ toString index ++ ".yaml").toList,
    mode := 0o600,
    size := res.content.length,
    content := res.content }

/-- The metadata of a tarball layer as reported by the layer backend. -/
structure Layer where
  digest : Str
  diffID : Str
  size : Nat
  mediaType : Str
deriving DecidableEq

/-- The `annotatedLayer` struct: the wrapped tarball layer plus the
annotations map. -/
structure AnnotatedLayer where
  layer : Layer
  annotations : List (Str × Str)
deriving DecidableEq

/-- The three fixed annotations attached to the layer of a resource. -/
def annotationsFor (r : Resource) : List (Str × Str) :=
  [("dev.tekton.image.apiVersion".toList, r.key.apiVersion),
   ("dev.tekton.image.kind".toList, r.key.kind),
   ("dev.tekton.image.name".toList, r.key.name)]

/-- An OCI descriptor as populated by `annotatedLayer.Descriptor`. -/
structure Descriptor where
  annotations : List (Str × Str)
  mediaType : Str
  size : Nat
  digest : Str
deriving DecidableEq

/-- Model of `annotatedLayer.Descriptor`: the annotations of the wrapper,
with media type, size and digest copied from the wrapped layer. -/
def AnnotatedLayer.descriptor (al : AnnotatedLayer) : Descriptor :=
  { annotations := al.annotations,
    mediaType := al.layer.mediaType,
    size := al.layer.size,
    digest := al.layer.digest }

/-- Model of `annotatedLayer.Digest`: delegates to the wrapped layer. -/
def AnnotatedLayer.digest (al : AnnotatedLayer) : Str := al.layer.digest

/-- Model of `annotatedLayer.DiffID`: delegates to the wrapped layer. -/
def AnnotatedLayer.diffID (al : AnnotatedLayer) : Str := al.layer.diffID

/-- Model of `annotatedLayer.Size`: delegates to the wrapped layer. -/
def AnnotatedLayer.size (al : AnnotatedLayer) : Nat := al.layer.size

/-- Model of `annotatedLayer.MediaType`: delegates to the wrapped layer. -/
def AnnotatedLayer.mediaType (al : AnnotatedLayer) : Str := al.layer.mediaType

/-- The loop of `constructImage`: stage the tarball of each resource under
the temporary directory, build its layer from the tarball bytes, wrap it
with the three annotations, and append it to the growing image
(`mutate.AppendLayers`).  The staged path `tarname` depends on `tempDir`
but the tar bytes do not. -/
def constructImageLoop (lb : TarEntry → Layer) (tempDir : Str) :
    List Resource → Nat → List AnnotatedLayer → List AnnotatedLayer
  | [], _, image => image
  | r :: rest, index, image =>
    let _tarname := tempDir ++ ("/resource-" ++ toString index ++ ".tar").toList
    let tar := createTarball r index
    let layer := lb tar
    let al : AnnotatedLayer := { layer := layer, annotations := annotationsFor r }
    constructImageLoop lb tempDir rest (index + 1) (image ++ [al])

/-- Model of `constructImage`: starting from `empty.Image`, append one
annotated layer per resource in order. -/
def constructImage (lb : TarEntry → Layer) (tempDir : Str)
    (resources : List Resource) : List AnnotatedLayer :=
  constructImageLoop lb tempDir resources 0 []

theorem constructImageLoop_acc (lb : TarEntry → Layer) (tempDir : Str) :
    ∀ rs n img, constructImageLoop lb tempDir rs n img =
      img ++ constructImageLoop lb tempDir rs n [] := by
  intro rs
  induction rs with
  | nil => intro n img; simp [constructImageLoop]
  | cons r rest ih =>
    intro n img
    simp only [constructImageLoop]
    generalize ({ layer := lb (createTarball r n), annotations := annotationsFor r } : AnnotatedLayer) = al
    rw [ih (n + 1) (img ++ [al]), ih (n + 1) ([] ++ [al])]
    simp

theorem constructImageLoop_getElem? (lb : TarEntry → Layer) (tempDir : Str) :
    ∀ (rs : List Resource) (n i : Nat),
      (constructImageLoop lb tempDir rs n [])[i]? =
        rs[i]?.map (fun r =>
          ({ layer := lb (createTarball r (n + i)),
             annotations := annotationsFor r } : AnnotatedLayer)) := by
  intro rs
  induction rs with
  | nil => intro n i; simp [constructImageLoop]
  | cons r rest ih =>
    intro n i
    simp only [constructImageLoop]
    rw [constructImageLoop_acc lb tempDir rest (n + 1)]
    cases i with
    | zero => simp
    | succ j =>
      simp only [List.nil_append, List.singleton_append, List.getElem?_cons_succ]
      rw [ih (n + 1) j]
      have hnn : n + 1 + j = n + (j + 1) := by omega
      simp only [hnn]

theorem constructImageLoop_length (lb : TarEntry → Layer) (tempDir : Str) :
    ∀ (rs : List Resource) n,
      (constructImageLoop lb tempDir rs n []).length = rs.length := by
  intro rs
  induction rs with
  | nil => intro n; simp [constructImageLoop]
  | cons r rest ih =>
    intro n
    simp only [constructImageLoop]
    rw [constructImageLoop_acc lb tempDir rest (n + 1)]
    simp [ih (n + 1)]

theorem constructImage_getElem? (lb : TarEntry → Layer) (tempDir : Str)
    (rs : List Resource) (i : Nat) :
    (constructImage lb tempDir rs)[i]? =
      rs[i]?.map (fun r =>
        ({ layer := lb (createTarball r i), annotations := annotationsFor r } : AnnotatedLayer)) := by
  have h := constructImageLoop_getElem? lb tempDir rs 0 i
  simpa using h

theorem constructImage_length (lb : TarEntry → Layer) (tempDir : Str)
    (rs : List Resource) :
    (constructImage lb tempDir rs).length = rs.length :=
  constructImageLoop_length lb tempDir rs 0

/-! ### Locating parts inside the flattened triples -/

theorem mem_indexParts (filename : Str) :
    ∀ (parts : List Str) (p : Str), p ∈ parts →
      ∀ n, ∃ i, (filename, i, p) ∈ indexParts filename parts n := by
  intro parts
  induction parts with
  | nil => intro p hp n; exact absurd hp (List.not_mem_nil p)
  | cons q rest ih =>
    intro p hp n
    rcases List.mem_cons.mp hp with heq | hmem
    · subst heq; exact ⟨n, List.mem_cons_self _ _⟩
    · obtain ⟨i, hi⟩ := ih p hmem (n + 1)
      exact ⟨i, List.mem_cons_of_mem _ hi⟩

theorem mem_partsOf :
    ∀ (files : List (Str × Str)) (fn c : Str) (t : Str × Nat × Str),
      (fn, c) ∈ files → t ∈ indexParts fn (goSplit sepStr c) 0 → t ∈ partsOf files := by
  intro files
  induction files with
  | nil => intro fn c t hmem _; exact absurd hmem (List.not_mem_nil _)
  | cons f rest ih =>
    intro fn c t hmem hin
    obtain ⟨fn2, c2⟩ := f
    rcases List.mem_cons.mp hmem with heq | hmem2
    · obtain ⟨h1, h2⟩ := Prod.mk.inj heq
      subst h1
      subst h2
      simp only [partsOf]
      exact List.mem_append_left _ hin
    · simp only [partsOf]
      exact List.mem_append_right _ (ih fn c t hmem2 hin)

/-! ## Claim C2 -/

/-- C2: if any two documents across the files yield the same
(apiVersion, kind, name) triple, `parseFiles` fails with a
`DuplicateResource` error carrying a key that occurs at least twice, and
returns no resource list; conversely, on success the extracted keys are
pairwise distinct (the uniqueness index never holds two resources with an
equal key). -/
theorem parseFiles_duplicate_detection (u : Str → Option YamlResource)
    (files : List (Str × Str)) :
    (∀ rs, parseFiles u files = .ok rs → (rs.map (·.key)).Nodup) ∧
    ((∀ t ∈ partsOf files, (parseResource u t.2.2 t.1 t.2.1).isOk = true) →
      ¬ (keysOf u (partsOf files)).Nodup →
      ∃ k, parseFiles u files = .error (.duplicateResource k) ∧
        2 ≤ (keysOf u (partsOf files)).count k) := by
  constructor
  · intro rs h
    rw [parseFiles_eq_processParts] at h
    cases hp : processParts u (partsOf files) [] [] with
    | error e =>
      rw [hp] at h
      exact absurd h (by simp [Except.map])
    | ok p =>
      obtain ⟨ks, acc⟩ := p
      rw [hp] at h
      have hacc : acc = rs := by simpa [Except.map] using h
      subst hacc
      exact processParts_ok_nodup u (partsOf files) [] [] ks acc (by simp) (by simp) hp
  · intro hall hdup
    have hall2 : ∀ t ∈ partsOf files, ∃ r, parseResource u t.2.2 t.1 t.2.1 = .ok r := by
      intro t ht
      have hb := hall t ht
      cases hres : parseResource u t.2.2 t.1 t.2.1 with
      | error e => rw [hres] at hb; exact Bool.noConfusion hb
      | ok r => exact ⟨r, rfl⟩
    have hdup2 : ¬ (([] : List ResourceKey) ++ keysOf u (partsOf files)).Nodup := by
      simpa using hdup
    obtain ⟨k, hrun, hloc⟩ :=
      processParts_duplicate u (partsOf files) [] [] List.nodup_nil hall2 hdup2
    refine ⟨k, ?_, ?_⟩
    · rw [parseFiles_eq_processParts, hrun]
      rfl
    · rcases hloc with ⟨hk1, _⟩ | hcount
      · exact absurd hk1 (List.not_mem_nil k)
      · exact hcount

/-- Fixture: an unmarshal collaborator producing a valid Task envelope whose
name is the document text itself. -/
def uEcho : Str → Option YamlResource := fun s =>
  some { kind := "Task".toList, apiVersion := supportedAPIVersion, metadata := { name := s } }

/-- Fixture: one file whose two documents carry the same name. -/
def filesDup : List (Str × Str) := [("a.yaml".toList, "x---\nx".toList)]

/-- Witness for C2: a file with two identical documents makes `parseFiles`
fail with `DuplicateResource` on a key occurring twice. -/
theorem parseFiles_duplicate_detection_witness :
    (∀ t ∈ partsOf filesDup, (parseResource uEcho t.2.2 t.1 t.2.1).isOk = true) ∧
    ¬ (keysOf uEcho (partsOf filesDup)).Nodup ∧
    ∃ k, parseFiles uEcho filesDup = .error (.duplicateResource k) ∧
      2 ≤ (keysOf uEcho (partsOf filesDup)).count k :=
  ⟨by decide, by decide,
   (parseFiles_duplicate_detection uEcho filesDup).2 (by decide) (by decide)⟩

/-! ## Claim C3 -/

/-- C3: on successful extraction the resource list matches the flattened
(file order, then in-file order) document sequence one-to-one and in order,
and `constructImage` appends exactly one layer per resource to the
initially empty image in that order: layer `i` is built from resource `i`. -/
theorem extraction_order_and_layers (u : Str → Option YamlResource)
    (files : List (Str × Str)) (rs : List Resource)
    (lb : TarEntry → Layer) (tempDir : Str)
    (h : parseFiles u files = .ok rs) :
    List.Forall₂ (fun t r => parseResource u t.2.2 t.1 t.2.1 = .ok r) (partsOf files) rs ∧
    (constructImage lb tempDir rs).length = rs.length ∧
    ∀ i : Nat, (constructImage lb tempDir rs)[i]? =
      rs[i]?.map (fun r =>
        ({ layer := lb (createTarball r i), annotations := annotationsFor r } : AnnotatedLayer)) := by
  refine ⟨?_, constructImage_length lb tempDir rs, fun i => constructImage_getElem? lb tempDir rs i⟩
  rw [parseFiles_eq_processParts] at h
  cases hp : processParts u (partsOf files) [] [] with
  | error e =>
    rw [hp] at h
    exact absurd h (by simp [Except.map])
  | ok p =>
    obtain ⟨ks, acc⟩ := p
    rw [hp] at h
    have hacc : acc = rs := by simpa [Except.map] using h
    subst hacc
    obtain ⟨rs2, hrs2, hf⟩ := processParts_ok_forall2 u (partsOf files) [] [] ks acc hp
    rw [hrs2]
    simpa using hf

/-- Fixture: a resource as produced by `uEcho` for document text `s`. -/
def mkEcho (s : Str) : Resource :=
  { key := { apiVersion := supportedAPIVersion, kind := "Task".toList, name := s },
    content := s }

/-- Fixture: two files holding three documents overall. -/
def files3 : List (Str × Str) :=
  [("a.yaml".toList, "x---\ny".toList), ("b.yaml".toList, "z".toList)]

/-- Fixture: the expected extraction result for `files3` under `uEcho`. -/
def rs3 : List Resource := [mkEcho "x".toList, mkEcho "y".toList, mkEcho "z".toList]

/-- Fixture: a layer backend computing mock metadata from the tar bytes. -/
def lbTest : TarEntry → Layer := fun t =>
  { digest := t.content, diffID := t.content, size := t.size, mediaType := "tar".toList }

/-- Witness for C3 on a concrete two-file batch. -/
theorem extraction_order_and_layers_witness :
    parseFiles uEcho files3 = .ok rs3 ∧
    List.Forall₂ (fun t r => parseResource uEcho t.2.2 t.1 t.2.1 = .ok r) (partsOf files3) rs3 ∧
    (constructImage lbTest "/tmp/x".toList rs3).length = rs3.length ∧
    ((constructImage lbTest "/tmp/x".toList rs3)[1]? =
      rs3[1]?.map (fun r =>
        ({ layer := lbTest (createTarball r 1), annotations := annotationsFor r } : AnnotatedLayer))) :=
  have h : parseFiles uEcho files3 = .ok rs3 := by decide
  ⟨h, (extraction_order_and_layers uEcho files3 rs3 lbTest "/tmp/x".toList h).1,
   (extraction_order_and_layers uEcho files3 rs3 lbTest "/tmp/x".toList h).2.1,
   (extraction_order_and_layers uEcho files3 rs3 lbTest "/tmp/x".toList h).2.2 1⟩

/-! ## Claim C4 -/

/-- C4: layer `i` of the constructed image wraps the tarball layer of
resource `i` and its descriptor carries exactly the three annotation keys
`dev.tekton.image.apiVersion`, `dev.tekton.image.kind`,
`dev.tekton.image.name` valued from that resource's key, while media type,
size and digest are copied from the wrapped tarball layer (and the
wrapper's digest/diffID/size/mediaType delegate to it). -/
theorem layer_descriptor_annotations (lb : TarEntry → Layer) (tempDir : Str)
    (rs : List Resource) (i : Nat) (r : Resource) (h : rs[i]? = some r) :
    (constructImage lb tempDir rs)[i]? = some
      { layer := lb (createTarball r i),
        annotations :=
          [("dev.tekton.image.apiVersion".toList, r.key.apiVersion),
           ("dev.tekton.image.kind".toList, r.key.kind),
           ("dev.tekton.image.name".toList, r.key.name)] } ∧
    AnnotatedLayer.descriptor
        { layer := lb (createTarball r i), annotations := annotationsFor r } =
      { annotations :=
          [("dev.tekton.image.apiVersion".toList, r.key.apiVersion),
           ("dev.tekton.image.kind".toList, r.key.kind),
           ("dev.tekton.image.name".toList, r.key.name)],
        mediaType := (lb (createTarball r i)).mediaType,
        size := (lb (createTarball r i)).size,
        digest := (lb (createTarball r i)).digest } ∧
    AnnotatedLayer.digest { layer := lb (createTarball r i), annotations := annotationsFor r } =
      (lb (createTarball r i)).digest ∧
    AnnotatedLayer.diffID { layer := lb (createTarball r i), annotations := annotationsFor r } =
      (lb (createTarball r i)).diffID ∧
    AnnotatedLayer.size { layer := lb (createTarball r i), annotations := annotationsFor r } =
      (lb (createTarball r i)).size ∧
    AnnotatedLayer.mediaType { layer := lb (createTarball r i), annotations := annotationsFor r } =
      (lb (createTarball r i)).mediaType := by
  refine ⟨?_, rfl, rfl, rfl, rfl, rfl⟩
  rw [constructImage_getElem?, h]
  rfl

/-- Witness for C4 at resource 0 of the concrete batch. -/
theorem layer_descriptor_annotations_witness :
    rs3[0]? = some (mkEcho "x".toList) ∧
    (constructImage lbTest "/tmp/x".toList rs3)[0]? = some
      { layer := lbTest (createTarball (mkEcho "x".toList) 0),
        annotations :=
          [("dev.tekton.image.apiVersion".toList, (mkEcho "x".toList).key.apiVersion),
           ("dev.tekton.image.kind".toList, (mkEcho "x".toList).key.kind),
           ("dev.tekton.image.name".toList, (mkEcho "x".toList).key.name)] } :=
  have h : rs3[0]? = some (mkEcho "x".toList) := by decide
  ⟨h, (layer_descriptor_annotations lbTest "/tmp/x".toList rs3 0 (mkEcho "x".toList) h).1⟩

/-! ## Claim C5 -/

/-- C5: the constructed image — and hence any digest computed from it — is a
function of the ordered resource list alone; the staging directory name
(which varies with the run timestamp) does not influence it, because the
tar bytes never contain the staging path. -/
theorem constructImage_deterministic (lb : TarEntry → Layer)
    (tempDir1 tempDir2 : Str) (rs : List Resource)
    (imageDigest : List AnnotatedLayer → Str) :
    constructImage lb tempDir1 rs = constructImage lb tempDir2 rs ∧
    imageDigest (constructImage lb tempDir1 rs) =
      imageDigest (constructImage lb tempDir2 rs) := by
  have hloop : ∀ (rsx : List Resource) n img,
      constructImageLoop lb tempDir1 rsx n img = constructImageLoop lb tempDir2 rsx n img := by
    intro rsx
    induction rsx with
    | nil => intro n img; rfl
    | cons r rest ih =>
      intro n img
      simp only [constructImageLoop]
      exact ih (n + 1) _
  have h : constructImage lb tempDir1 rs = constructImage lb tempDir2 rs := hloop rs 0 []
  exact ⟨h, congrArg imageDigest h⟩

/-! ## Claim C10 -/

/-- C10: an input file whose contents are empty, start with the separator
`"---\n"`, or end with it, contributes an empty document part; under the
YAML collaborator's behaviour on empty input (an all-empty envelope, so an
empty apiVersion) the whole batch is rejected.  With a leading separator in
the first file the reported error is precisely the apiVersion error for
document 0 of that file. -/
theorem parseFiles_boundary_separator (u : Str → Option YamlResource)
    (hu : u [] = some { kind := [], apiVersion := [], metadata := { name := [] } }) :
    (∀ files fn contents, (fn, contents) ∈ files →
      (contents = [] ∨ sepStr.isPrefixOf contents ∨ sepStr.isSuffixOf contents) →
      ∃ e, parseFiles u files = .error e) ∧
    (∀ (fn rest : Str) (others : List (Str × Str)),
      parseFiles u ((fn, sepStr ++ rest) :: others) =
        .error (.unsupportedAPIVersion fn 0)) := by
  have hbad : ∀ fn i, parseResource u [] fn i = .error (.unsupportedAPIVersion fn i) := by
    intro fn i
    simp only [parseResource, hu]
    rw [if_pos (show ([] : Str) ≠ supportedAPIVersion by decide)]
  constructor
  · intro files fn contents hmem hcase
    have hnilmem : [] ∈ goSplit sepStr contents := by
      rcases hcase with hc | hc | hc
      · subst hc; decide
      · obtain ⟨r, hr⟩ := List.isPrefixOf_iff_prefix.mp hc
        rw [← hr, goSplit_sep_append sepStr r (by decide)]
        exact List.mem_cons_self _ _
      · obtain ⟨t0, ht0⟩ := List.isSuffixOf_iff_suffix.mp hc
        rw [← ht0]
        exact mem_goSplit_append_sepStr t0
    obtain ⟨i, hti⟩ := mem_indexParts fn (goSplit sepStr contents) [] hnilmem 0
    have htOf := mem_partsOf files fn contents (fn, i, []) hmem hti
    obtain ⟨e, he⟩ := processParts_fails u (partsOf files) [] []
      ⟨(fn, i, []), htOf, fun r hr => Except.noConfusion ((hbad fn i).symm.trans hr)⟩
    refine ⟨e, ?_⟩
    rw [parseFiles_eq_processParts, he]
    rfl
  · intro fn rest others
    have hsplit : goSplit sepStr (sepStr ++ rest) = [] :: goSplit sepStr rest :=
      goSplit_sep_append sepStr rest (by decide)
    simp only [parseFiles, parseFilesGo, hsplit, parseFilesParts, hbad fn 0]
    rfl

/-- Fixture: an unmarshal collaborator matching the YAML library's handling
of an empty document (zero-valued envelope) and treating every other
document as a valid Task named by its text. -/
def uZero : Str → Option YamlResource := fun s =>
  if s = [] then some { kind := [], apiVersion := [], metadata := { name := [] } }
  else some { kind := "Task".toList, apiVersion := supportedAPIVersion,
              metadata := { name := s } }

/-- Witness for C10: a leading separator yields the apiVersion error at
document 0, and a trailing separator also rejects the batch. -/
theorem parseFiles_boundary_separator_witness :
    uZero [] = some { kind := [], apiVersion := [], metadata := { name := [] } } ∧
    parseFiles uZero [("a.yaml".toList, sepStr ++ "x".toList)] =
      .error (.unsupportedAPIVersion "a.yaml".toList 0) ∧
    (∃ e, parseFiles uZero [("b.yaml".toList, "ok".toList ++ sepStr)] = .error e) :=
  have hu : uZero [] = some { kind := [], apiVersion := [], metadata := { name := [] } } := by
    decide
  ⟨hu, (parseFiles_boundary_separator uZero hu).2 "a.yaml".toList "x".toList [],
   (parseFiles_boundary_separator uZero hu).1
     [("b.yaml".toList, "ok".toList ++ sepStr)] "b.yaml".toList ("ok".toList ++ sepStr)
     (by decide) (Or.inr (Or.inr (by decide)))⟩

/-! ## Model of `main` (post-flag pipeline) and claim C8

The CLI surface (flag parsing, reference parsing) is out of scope; the model
starts after a reference was accepted.  `publishImage` (a push against the
external registry followed by `image.Digest()`) is the external `publish`
parameter.  The `fmt.Printf` on exceeding `maxResources` only reports; the
model records the reported (bound, count) pair and continues. -/

/-- The fixed resource-count bound. -/
def maxResources : Nat := 10

/-- Failure exits of the modelled pipeline. -/
inductive MainError where
  | parseFailed (e : ParseError)
  | publishFailed (e : Str)
deriving DecidableEq

/-- Success outcome: the over-bound report (if any) and the printed
`<reference-name>@<digest>` line. -/
structure MainResult where
  tooMany : Option (Nat × Nat)
  output : Str
deriving DecidableEq

/-- Model of `main` after flag validation: parse the files, report (but do
not fail) when more than `maxResources` resources were found, construct the
image and publish it, printing `ref.Name() + "@" + digest`. -/
def mainFlow (u : Str → Option YamlResource) (lb : TarEntry → Layer)
    (tempDir : Str) (publish : List AnnotatedLayer → Except Str Str)
    (refName : Str) (files : List (Str × Str)) : Except MainError MainResult :=
  match parseFiles u files with
  | .error e => .error (.parseFailed e)
  | .ok resources =>
    let tooMany := if maxResources < resources.length then
        some (maxResources, resources.length) else none
    match publish (constructImage lb tempDir resources) with
    | .error e => .error (.publishFailed e)
    | .ok digest => .ok { tooMany := tooMany, output := refName ++ ('@' :: digest) }

/-- C8: when extraction succeeds with more than `maxResources` resources,
the run reports the bound and the actual count but still constructs and
publishes the image exactly as for a within-bound list; the exit path is
decided solely by the publish step. -/
theorem mainFlow_soft_limit (u : Str → Option YamlResource) (lb : TarEntry → Layer)
    (tempDir : Str) (publish : List AnnotatedLayer → Except Str Str)
    (refName : Str) (files : List (Str × Str)) (rs : List Resource)
    (h : parseFiles u files = .ok rs) (hover : maxResources < rs.length) :
    mainFlow u lb tempDir publish refName files =
      match publish (constructImage lb tempDir rs) with
      | .error e => .error (.publishFailed e)
      | .ok digest => .ok { tooMany := some (maxResources, rs.length),
                            output := refName ++ ('@' :: digest) } := by
  simp only [mainFlow, h]
  rw [if_pos hover]

/-- Fixture: one file with eleven documents. -/
def files11 : List (Str × Str) :=
  [("f.yaml".toList,
    "a---\nb---\nc---\nd---\ne---\nf---\ng---\nh---\ni---\nj---\nk".toList)]

/-- Fixture: the eleven extracted resources of `files11` under `uEcho`. -/
def rs11 : List Resource :=
  ["a", "b", "c", "d", "e", "f", "g", "h", "i", "j", "k"].map (fun s => mkEcho s.toList)

/-- Fixture: a publish collaborator that always succeeds with digest `D`. -/
def pubOk : List AnnotatedLayer → Except Str Str := fun _ => .ok "D".toList

/-- Witness for C8: eleven resources exceed the bound of ten, the excess is
reported, and the image is still published. -/
theorem mainFlow_soft_limit_witness :
    parseFiles uEcho files11 = .ok rs11 ∧
    maxResources < rs11.length ∧
    mainFlow uEcho lbTest "/tmp/x".toList pubOk "ref".toList files11 =
      .ok { tooMany := some (10, 11), output := "ref".toList ++ ('@' :: "D".toList) } :=
  have h : parseFiles uEcho files11 = .ok rs11 := by decide
  have hover : maxResources < rs11.length := by decide
  ⟨h, hover,
   (mainFlow_soft_limit uEcho lbTest "/tmp/x".toList pubOk "ref".toList files11 rs11
      h hover).trans (by decide)⟩

/-! ## Model of `cosignVerifier.Verify` (oci package)

External collaborators are parameters: `pemToECDSA` models
`cosign.PemToECDSAKey`, `loadECDSA` models
`signature.LoadECDSAVerifier(·, crypto.SHA256)` (the hash is fixed in the
call), `keyFromRef` models `cosignsignature.PublicKeyFromKeyRef`, and
`backend` models `cosign.VerifyImageSignatures` (the `bool` is the
backend's "verified" verdict — per the spec, whether a non-empty set of
valid signatures exists; the returned signature list is discarded by the
code and hence by the model).  Context and keychain are plumbing with no
branching and are omitted.

The source contains a variable-shadowing slip preserved faithfully here:
inside the PEM branch, `ecdsa, err := cosign.PemToECDSAKey(...)` declares an
inner `err`, and `cosignOpts.SigVerifier, err = signature.LoadECDSAVerifier`
assigns that inner `err`, so the `if err != nil` check after the branch
reads the still-nil outer `err` and a `LoadECDSAVerifier` failure is
silently discarded (with `SigVerifier` left nil). -/

/-- An ECDSA public key as handed back by the PEM decoding collaborator. -/
structure ECDSAKey where
  raw : Str
deriving DecidableEq

/-- A signature verifier handle as produced by the key loaders. -/
structure SigVerifier where
  keyId : Str
deriving DecidableEq

/-- Errors of the modelled `Verify`, one constructor per return site:
`converting pem to ecdsa`, `loading key`, the backend error passed through
unchanged, and `signature on <ref> was not verified`. -/
inductive VerifyError where
  | convertingPem (msg : Str)
  | loadingKey (msg : Str)
  | backendFailed (msg : Str)
  | signatureNotVerified (ref : Str)
deriving DecidableEq

/-- The PEM public-key marker. -/
def pemMarker : Str := "-----BEGIN PUBLIC KEY-----".toList

/-- Model of `strings.TrimSpace`. -/
def goTrimSpace (s : Str) : Str :=
  ((s.dropWhile Char.isWhitespace).reverse.dropWhile Char.isWhitespace).reverse

/-- The key-material block of `Verify` for non-empty key material: either an
early return from inside the PEM branch (`converting pem to ecdsa`), or the
`SigVerifier` option together with the outer `err` value after the branch.
In the PEM branch a `LoadECDSAVerifier` failure leaves the outer `err` nil
and `SigVerifier` nil (the shadowing slip); in the key-reference branch a
failure sets the outer `err`. -/
def loadKeyBlock (pemToECDSA : Str → Except Str ECDSAKey)
    (loadECDSA : ECDSAKey → Except Str SigVerifier)
    (keyFromRef : Str → Except Str SigVerifier)
    (key : Str) : Except VerifyError (Option SigVerifier × Option Str) :=
  if pemMarker.isPrefixOf (goTrimSpace key) then
    match pemToECDSA (goTrimSpace key) with
    | .error e => .error (.convertingPem e)
    | .ok k =>
      match loadECDSA k with
      | .error _e => .ok (none, none)
      | .ok v => .ok (some v, none)
  else
    match keyFromRef key with
    | .error e => .ok (none, some e)
    | .ok v => .ok (some v, none)

/-- The tail of `Verify`: query the backend; pass a backend error through,
report `signature on <ref> was not verified` when the verdict is negative,
and return `(true, nil)` otherwise. -/
def runBackend (backend : Str → Option SigVerifier → Except Str Bool)
    (imgRef : Str) (sv : Option SigVerifier) : Bool × Option VerifyError :=
  match backend imgRef sv with
  | .error e => (false, some (.backendFailed e))
  | .ok verified =>
    if verified = false then (false, some (.signatureNotVerified imgRef))
    else (true, none)

/-- Model of `cosignVerifier.Verify`. -/
def cosignVerify (pemToECDSA : Str → Except Str ECDSAKey)
    (loadECDSA : ECDSAKey → Except Str SigVerifier)
    (keyFromRef : Str → Except Str SigVerifier)
    (backend : Str → Option SigVerifier → Except Str Bool)
    (imgRef key : Str) : Bool × Option VerifyError :=
  if key ≠ [] then
    match loadKeyBlock pemToECDSA loadECDSA keyFromRef key with
    | .error e => (false, some e)
    | .ok (_, some e) => (false, some (.loadingKey e))
    | .ok (sv, none) => runBackend backend imgRef sv
  else
    runBackend backend imgRef none

/-! ### Behaviour of the backend tail -/

theorem runBackend_cases (backend : Str → Option SigVerifier → Except Str Bool)
    (imgRef : Str) (sv : Option SigVerifier) :
    (backend imgRef sv = .ok true → runBackend backend imgRef sv = (true, none)) ∧
    (backend imgRef sv = .ok false →
      runBackend backend imgRef sv = (false, some (.signatureNotVerified imgRef))) ∧
    (∀ e, backend imgRef sv = .error e →
      runBackend backend imgRef sv = (false, some (.backendFailed e))) := by
  refine ⟨fun h => ?_, fun h => ?_, fun e h => ?_⟩ <;> simp [runBackend, h]

theorem runBackend_iff (backend : Str → Option SigVerifier → Except Str Bool)
    (imgRef : Str) (sv : Option SigVerifier) :
    (runBackend backend imgRef sv).1 = true ↔ (runBackend backend imgRef sv).2 = none := by
  cases hb : backend imgRef sv with
  | error e => simp [runBackend, hb]
  | ok v => cases v <;> simp [runBackend, hb]

theorem runBackend_true (backend : Str → Option SigVerifier → Except Str Bool)
    (imgRef : Str) (sv : Option SigVerifier) :
    (runBackend backend imgRef sv).1 = true → backend imgRef sv = .ok true := by
  cases hb : backend imgRef sv with
  | error e => simp [runBackend, hb]
  | ok v => cases v <;> simp [runBackend, hb]

/-! ## Claim C1 -/

/-- C1 (amended): `Verify` returns `verified = true` together with a nil
error exactly when it reaches the backend and the backend's verdict is
positive; a negative verdict yields `(false, SignatureNotVerified <ref>)`;
a backend error yields `(false, <the backend's error passed through>)` —
not a `SignatureNotVerified` error; and no return pairs `true` with a
non-nil error or `false` with a nil error. -/
theorem cosignVerify_contract (pemToECDSA : Str → Except Str ECDSAKey)
    (loadECDSA : ECDSAKey → Except Str SigVerifier)
    (keyFromRef : Str → Except Str SigVerifier)
    (backend : Str → Option SigVerifier → Except Str Bool)
    (imgRef key : Str) :
    ((cosignVerify pemToECDSA loadECDSA keyFromRef backend imgRef key).1 = true ↔
      (cosignVerify pemToECDSA loadECDSA keyFromRef backend imgRef key).2 = none) ∧
    ((cosignVerify pemToECDSA loadECDSA keyFromRef backend imgRef key).1 = true →
      ∃ sv, backend imgRef sv = .ok true) ∧
    (∀ sv, ((key = [] ∧ sv = none) ∨
        (key ≠ [] ∧ loadKeyBlock pemToECDSA loadECDSA keyFromRef key = .ok (sv, none))) →
      (backend imgRef sv = .ok true →
        cosignVerify pemToECDSA loadECDSA keyFromRef backend imgRef key = (true, none)) ∧
      (backend imgRef sv = .ok false →
        cosignVerify pemToECDSA loadECDSA keyFromRef backend imgRef key =
          (false, some (.signatureNotVerified imgRef))) ∧
      (∀ e, backend imgRef sv = .error e →
        cosignVerify pemToECDSA loadECDSA keyFromRef backend imgRef key =
          (false, some (.backendFailed e)))) := by
  by_cases hkey : key = []
  · subst hkey
    have hred : cosignVerify pemToECDSA loadECDSA keyFromRef backend imgRef [] =
        runBackend backend imgRef none := by
      simp [cosignVerify]
    rw [hred]
    refine ⟨runBackend_iff backend imgRef none,
      fun h => ⟨none, runBackend_true backend imgRef none h⟩, ?_⟩
    intro sv hyp
    rcases hyp with ⟨_, hsv⟩ | ⟨hne, _⟩
    · subst hsv
      exact runBackend_cases backend imgRef none
    · exact absurd rfl hne
  · have hne : key ≠ [] := hkey
    cases hlk : loadKeyBlock pemToECDSA loadECDSA keyFromRef key with
    | error e =>
      have hred : cosignVerify pemToECDSA loadECDSA keyFromRef backend imgRef key =
          (false, some e) := by
        rw [cosignVerify, if_pos hne, hlk]
      rw [hred]
      refine ⟨by simp, fun h => absurd h (by simp), ?_⟩
      intro sv hyp
      rcases hyp with ⟨heq, _⟩ | ⟨_, hok⟩
      · exact absurd heq hne
      · exact absurd hok (by simp)
    | ok p =>
      obtain ⟨sv0, oerr⟩ := p
      cases oerr with
      | some e =>
        have hred : cosignVerify pemToECDSA loadECDSA keyFromRef backend imgRef key =
            (false, some (.loadingKey e)) := by
          rw [cosignVerify, if_pos hne, hlk]
        rw [hred]
        refine ⟨by simp, fun h => absurd h (by simp), ?_⟩
        intro sv hyp
        rcases hyp with ⟨heq, _⟩ | ⟨_, hok⟩
        · exact absurd heq hne
        · have hp := Except.ok.inj hok
          exact absurd (congrArg Prod.snd hp) (by simp)
      | none =>
        have hred : cosignVerify pemToECDSA loadECDSA keyFromRef backend imgRef key =
            runBackend backend imgRef sv0 := by
          rw [cosignVerify, if_pos hne, hlk]
        rw [hred]
        refine ⟨runBackend_iff backend imgRef sv0,
          fun h => ⟨sv0, runBackend_true backend imgRef sv0 h⟩, ?_⟩
        intro sv hyp
        rcases hyp with ⟨heq, _⟩ | ⟨_, hok⟩
        · exact absurd heq hne
        · have hsv : sv0 = sv := congrArg Prod.fst (Except.ok.inj hok)
          subst hsv
          exact runBackend_cases backend imgRef sv0

/-- Fixture: a PEM decoder that accepts every input. -/
def pemOkF : Str → Except Str ECDSAKey := fun s => .ok { raw := s }

/-- Fixture: an ECDSA verifier loader that accepts every key. -/
def loadOkF : ECDSAKey → Except Str SigVerifier := fun k => .ok { keyId := k.raw }

/-- Fixture: a key-reference resolver that accepts every reference. -/
def refOkF : Str → Except Str SigVerifier := fun s => .ok { keyId := s }

/-- Fixture: a backend whose signature query fails. -/
def backendBoom : Str → Option SigVerifier → Except Str Bool :=
  fun _ _ => .error "boom".toList

/-- Fixture: a backend that reports a valid signature. -/
def backendTrue : Str → Option SigVerifier → Except Str Bool := fun _ _ => .ok true

/-- Counterexample to C1 as stated: when the backend call returns an error,
`Verify` passes that error through instead of returning a
`SignatureNotVerified` error naming the reference. -/
theorem cosignVerify_backend_error_cex :
    cosignVerify pemOkF loadOkF refOkF backendBoom "img".toList [] =
      (false, some (.backendFailed "boom".toList)) ∧
    (false, some (VerifyError.backendFailed "boom".toList)) ≠
      (false, some (VerifyError.signatureNotVerified "img".toList)) :=
  ⟨by decide, by decide⟩

/-- Witness for the amended C1: with no key material and a positively
verifying backend, `Verify` returns `(true, nil)`. -/
theorem cosignVerify_contract_witness :
    cosignVerify pemOkF loadOkF refOkF backendTrue "img".toList [] = (true, none) :=
  ((cosignVerify_contract pemOkF loadOkF refOkF backendTrue "img".toList []).2.2 none
    (Or.inl ⟨rfl, rfl⟩)).1 rfl

/-! ## Claim C9 -/

/-- Fixture: an ECDSA verifier loader that rejects every key. -/
def loadBad : ECDSAKey → Except Str SigVerifier := fun _ => .error "bad".toList

/-- Fixture: a backend that verifies exactly when it receives no verifier,
exposing which verifier option `Verify` hands to the backend. -/
def backendIsNone : Str → Option SigVerifier → Except Str Bool :=
  fun _ sv => .ok sv.isNone

/-- C9 at the failing input: PEM-marked key material for which the
ECDSA-verifier construction step fails.  The error is discarded (the Go
source assigns it to a shadowed `err`), no key-loading error is returned,
and `Verify` proceeds to query the backend with no verifier configured —
here even returning `(true, nil)`. -/
theorem cosignVerify_shadowed_load_error :
    loadBad { raw := pemMarker } = .error "bad".toList ∧
    cosignVerify pemOkF loadBad refOkF backendIsNone "img".toList pemMarker =
      (true, none) :=
  ⟨rfl, by decide⟩

end Pipeline
